import Mathlib

/-!
Verification of the floppy-disk storage subsystem of the CLK emulator.

The development shallowly embeds the relevant C++ classes:
* `Storage.Disk.PCMSegmentEventSource` (PCMSegment.cpp),
* `Storage.Disk.Drive` (Drive.cpp),
* the MFM encoder and track assembler (MFM.cpp),
* `Storage.TimedEventLoop` (TimedEventLoop.cpp).

The C++ `Storage::Time` class is a rational number (numerator `length` over
denominator `clock_rate`); it is embedded as Lean's exact rationals `ℚ`.
The `PCMSegmentEventSource` constructor doubles `length_of_a_bit`'s numerator
and denominator whenever the numerator is odd, so the half-bit shifts
(`length >> 1`) performed by the event source are exact halvings; the
embedding therefore uses exact division by two.
-/

namespace CLK

/-! ## PCMSegment and PCMSegmentEventSource (PCMSegment.cpp) -/

/-- The two kinds of `Track::Event` (Track.hpp). -/
inductive EventType
  | IndexHole
  | FluxTransition
deriving DecidableEq, Repr

/-- A `Track::Event`: a type together with the time since the previous event. -/
structure Event where
  type : EventType
  length : ℚ
deriving DecidableEq, Repr

/-- A `PCMSegment`: a run of flux-transition bits at a single clock rate.
`length_of_a_bit` is the C++ `Time` value, embedded as an exact rational. -/
structure PCMSegment where
  data : List Bool
  length_of_a_bit : ℚ
deriving DecidableEq, Repr

/-- The mutable state of a `PCMSegmentEventSource`: the shared segment, the
cursor `bit_pointer_`, and the `type` field of the retained `next_event_`. -/
structure PCMSegmentEventSource where
  segment : PCMSegment
  bit_pointer : ℕ
  next_event_type : EventType
deriving DecidableEq, Repr

namespace PCMSegmentEventSource

/-- `PCMSegmentEventSource::reset()`: cursor to bit zero, expecting flux
transitions. This is also the state established by the constructor. -/
def reset (segment : PCMSegment) : PCMSegmentEventSource :=
  { segment := segment, bit_pointer := 0, next_event_type := EventType.FluxTransition }

/-- Index of the first `true` in a list of bits, if any.  This captures the
scanning loop of `PCMSegmentEventSource::get_next_event`, which walks
`segment_->data` from `bit_pointer_` until it finds a set bit. -/
def firstSet : List Bool → Option ℕ
  | [] => none
  | b :: rest => if b then some 0 else (firstSet rest).map (· + 1)

/-- `PCMSegmentEventSource::get_next_event()`.  Starting from `bit_pointer_`,
scan forward bit by bit accumulating `length_of_a_bit` per step; if starting
from bit zero, first subtract half a bit length.  Return on the first set
bit; if the data is exhausted, switch to `IndexHole` events, adding one final
half-bit grace period the first time the end is passed. -/
def get_next_event (s : PCMSegmentEventSource) : Event × PCMSegmentEventSource :=
  let L := s.segment.length_of_a_bit
  let n := s.segment.data.length
  -- if starting from the beginning, pull half a bit backward
  let len0 : ℚ := if s.bit_pointer = 0 then -(L / 2) else 0
  match firstSet (s.segment.data.drop s.bit_pointer) with
  | some k =>
      -- a set bit was found k steps in; k+1 bit lengths were accumulated
      ({ type := s.next_event_type, length := len0 + (k + 1 : ℕ) * L },
       { s with bit_pointer := s.bit_pointer + k + 1 })
  | none =>
      -- the end was reached without a set bit: index holes from now on
      let len1 : ℚ := len0 + ((n - s.bit_pointer : ℕ) : ℚ) * L
      if s.bit_pointer ≤ n then
        ({ type := EventType.IndexHole, length := len1 + L / 2 },
         { s with bit_pointer := n + 1, next_event_type := EventType.IndexHole })
      else
        ({ type := EventType.IndexHole, length := len1 },
         { s with next_event_type := EventType.IndexHole })

/-- `PCMSegmentEventSource::get_length()`. -/
def get_length (s : PCMSegmentEventSource) : ℚ :=
  s.segment.length_of_a_bit * (s.segment.data.length : ℚ)

/-- `PCMSegmentEventSource::seek_to(time_from_start)`.  Returns the time
landed on together with the updated source.  The C++
`(relative_time / length_of_a_bit).get<unsigned int>()` truncates the
rational quotient to an integer; for the non-negative quantities involved
this is the floor. -/
def seek_to (s : PCMSegmentEventSource) (time_from_start : ℚ) : ℚ × PCMSegmentEventSource :=
  let L := s.segment.length_of_a_bit
  let n := s.segment.data.length
  let length := get_length s
  if time_from_start ≥ length then
    (length, { s with next_event_type := EventType.IndexHole, bit_pointer := n + 1 })
  else
    let half_bit_length := L / 2
    if time_from_start < half_bit_length then
      (0, { s with next_event_type := EventType.FluxTransition, bit_pointer := 0 })
    else
      let relative_time := time_from_start - half_bit_length
      let ptr : ℕ := 1 + (⌊relative_time / L⌋).toNat
      (half_bit_length + L * ((ptr - 1 : ℕ) : ℚ),
       { s with next_event_type := EventType.FluxTransition, bit_pointer := ptr })

/-- Scanning from the start: repeatedly call `get_next_event`, summing the
returned lengths, until the accumulated time first surpasses `t`.  Fuel-based
recursion; `data.length + 2` calls always suffice (each call consumes at
least one bit of the segment, and one final index-hole call remains). -/
def scanUntil (t : ℚ) : ℕ → PCMSegmentEventSource → ℚ → Option (Event × ℚ)
  | 0, _, _ => none
  | fuel + 1, s, acc =>
      let (e, s') := get_next_event s
      if acc + e.length > t then some (e, acc + e.length)
      else scanUntil t fuel s' (acc + e.length)

end PCMSegmentEventSource

end CLK

namespace CLK.PCMSegmentEventSource

/-! ### Basic facts about `firstSet` -/

theorem firstSet_eq_none_iff (l : List Bool) :
    firstSet l = none ↔ ∀ b ∈ l, b = false := by
  induction l with
  | nil => simp [firstSet]
  | cons b rest ih =>
      by_cases hb : b
      · subst hb; simp [firstSet]
      · simp only [Bool.not_eq_true] at hb
        subst hb
        simp [firstSet, ih]

theorem firstSet_eq_some_iff (l : List Bool) (k : ℕ) :
    firstSet l = some k ↔
      ∃ h : k < l.length, l.get ⟨k, h⟩ = true ∧ ∀ i (hi : i < k),
        l.get ⟨i, Nat.lt_trans hi h⟩ = false := by
  induction l generalizing k with
  | nil => simp [firstSet]
  | cons b rest ih =>
      by_cases hb : b
      · subst hb
        constructor
        · intro h
          simp [firstSet] at h
          subst h
          exact ⟨Nat.succ_pos _, rfl, fun i hi => absurd hi (Nat.not_lt_zero i)⟩
        · rintro ⟨h, hk, hlt⟩
          match k with
          | 0 => simp [firstSet]
          | k' + 1 =>
              have := hlt 0 (Nat.succ_pos k')
              simp at this
      · simp only [Bool.not_eq_true] at hb
        subst hb
        constructor
        · intro h
          simp only [firstSet, if_neg] at h
          rcases Option.map_eq_some'.mp h with ⟨k', hk', rfl⟩
          rcases (ih k').mp hk' with ⟨hlen, hget, hlt⟩
          refine ⟨Nat.succ_lt_succ hlen, hget, ?_⟩
          intro i hi
          match i with
          | 0 => rfl
          | i' + 1 => exact hlt i' (Nat.lt_of_succ_lt_succ hi)
        · rintro ⟨h, hk, hlt⟩
          match k with
          | 0 => simp at hk
          | k' + 1 =>
              have : firstSet rest = some k' := by
                refine (ih k').mpr ⟨Nat.lt_of_succ_lt_succ h, hk, ?_⟩
                intro i hi
                exact hlt (i + 1) (Nat.succ_lt_succ hi)
              simp [firstSet, this]

end CLK.PCMSegmentEventSource

namespace CLK.PCMSegmentEventSource

/-- C7: For every `PCMSegmentEventSource` and every non-negative time `t`,
`seek_to(t)` returns a time less than or equal to `t`, as the `Track`
contract requires of every `seek_to` implementation. -/
theorem seek_to_le (s : PCMSegmentEventSource) (t : ℚ)
    (hL : 0 < s.segment.length_of_a_bit) (ht : 0 ≤ t) :
    (seek_to s t).1 ≤ t := by
  unfold seek_to
  dsimp only
  set L := s.segment.length_of_a_bit with hLdef
  split_ifs with hbig hsmall
  · exact hbig
  · exact ht
  · push_neg at hsmall
    simp only
    have hrel : (0:ℚ) ≤ (t - L / 2) / L := by
      apply div_nonneg _ (le_of_lt hL)
      linarith
    have hfloor_nonneg : (0:ℤ) ≤ ⌊(t - L / 2) / L⌋ := Int.floor_nonneg.mpr hrel
    have hcast : ((1 + (⌊(t - L / 2) / L⌋).toNat - 1 : ℕ) : ℚ)
        = ((⌊(t - L / 2) / L⌋ : ℤ) : ℚ) := by
      have h1 : (1 + (⌊(t - L / 2) / L⌋).toNat - 1 : ℕ) = (⌊(t - L / 2) / L⌋).toNat := by
        omega
      rw [h1]
      exact_mod_cast Int.toNat_of_nonneg hfloor_nonneg
    rw [hcast]
    have hle : ((⌊(t - L / 2) / L⌋ : ℤ) : ℚ) ≤ (t - L / 2) / L := Int.floor_le _
    have : L * ((⌊(t - L / 2) / L⌋ : ℤ) : ℚ) ≤ t - L / 2 := by
      calc L * ((⌊(t - L / 2) / L⌋ : ℤ) : ℚ) ≤ L * ((t - L / 2) / L) :=
            mul_le_mul_of_nonneg_left hle (le_of_lt hL)
        _ = t - L / 2 := by
            rw [mul_comm, div_mul_cancel₀ _ (ne_of_gt hL)]
    linarith

/-- Witness for `seek_to_le`: a concrete two-bit segment sought at `t = 3`. -/
theorem seek_to_le_witness :
    (seek_to (reset ⟨[true, false], 2⟩) 3).1 ≤ 3 :=
  seek_to_le (reset ⟨[true, false], 2⟩) 3 (by decide) (by decide)

/-! ### Infrastructure for the seek/scan consistency proof -/

theorem getD_drop (l : List Bool) (p i : ℕ) :
    (l.drop p).getD i false = l.getD (p + i) false := by
  induction l generalizing p with
  | nil => simp
  | cons a l ih =>
      cases p with
      | zero => simp
      | succ p' =>
          simp only [List.drop_succ_cons]
          rw [ih p']
          have h1 : p' + 1 + i = (p' + i) + 1 := by omega
          rw [h1, List.getD_cons_succ]

theorem firstSet_eq_some (l : List Bool) (k : ℕ) :
    firstSet l = some k ↔
      k < l.length ∧ l.getD k false = true ∧ ∀ i, i < k → l.getD i false = false := by
  induction l generalizing k with
  | nil => simp [firstSet]
  | cons b rest ih =>
      cases b with
      | true =>
          cases k with
          | zero => simp [firstSet]
          | succ k' =>
              simp only [firstSet, if_pos rfl]
              constructor
              · intro h; exact absurd (Option.some.inj h) (by omega)
              · rintro ⟨-, -, hlt⟩
                have := hlt 0 (Nat.succ_pos k')
                simp at this
      | false =>
          cases k with
          | zero =>
              simp [firstSet]
          | succ k' =>
              simp only [firstSet, Bool.false_eq_true, if_false]
              constructor
              · intro h
                rcases Option.map_eq_some'.mp h with ⟨m, hm, hmk⟩
                have hmk' : m = k' := by omega
                subst hmk'
                rcases (ih m).mp hm with ⟨hlen, hget, hlt⟩
                refine ⟨by simpa using Nat.succ_lt_succ hlen, hget, ?_⟩
                intro i hi
                cases i with
                | zero => rfl
                | succ i' => exact hlt i' (by omega)
              · rintro ⟨hlen, hget, hlt⟩
                have hrest : firstSet rest = some k' := by
                  refine (ih k').mpr ⟨by simpa using hlen, hget, ?_⟩
                  intro i hi
                  exact hlt (i + 1) (by omega)
                rw [hrest]
                rfl

theorem firstSet_eq_none (l : List Bool) :
    firstSet l = none ↔ ∀ i, l.getD i false = false := by
  induction l with
  | nil => simp [firstSet]
  | cons b rest ih =>
      cases b with
      | true =>
          simp only [firstSet, if_pos rfl]
          constructor
          · intro h; cases h
          · intro h
            have := h 0
            simp at this
      | false =>
          simp only [firstSet, Bool.false_eq_true, if_false, Option.map_eq_none', ih]
          constructor
          · intro h i
            cases i with
            | zero => rfl
            | succ i' => exact h i'
          · intro h i
            exact h (i + 1)

/-- One step of `scanUntil`. -/
theorem scanUntil_succ (t : ℚ) (fuel : ℕ) (s : PCMSegmentEventSource) (acc : ℚ) :
    scanUntil t (fuel + 1) s acc =
      if acc + (get_next_event s).1.length > t then
        some ((get_next_event s).1, acc + (get_next_event s).1.length)
      else scanUntil t fuel (get_next_event s).2 (acc + (get_next_event s).1.length) := rfl

theorem get_next_event_found (data : List Bool) (L : ℚ) (p k : ℕ) (ty : EventType)
    (hp : p ≠ 0) (h : firstSet (data.drop p) = some k) :
    get_next_event ⟨⟨data, L⟩, p, ty⟩ =
      ({ type := ty, length := ((k + 1 : ℕ) : ℚ) * L }, ⟨⟨data, L⟩, p + k + 1, ty⟩) := by
  simp [get_next_event, h, hp]

theorem get_next_event_found_zero (data : List Bool) (L : ℚ) (k : ℕ) (ty : EventType)
    (h : firstSet data = some k) :
    get_next_event ⟨⟨data, L⟩, 0, ty⟩ =
      ({ type := ty, length := -(L / 2) + ((k + 1 : ℕ) : ℚ) * L }, ⟨⟨data, L⟩, k + 1, ty⟩) := by
  simp [get_next_event, h]

theorem get_next_event_end (data : List Bool) (L : ℚ) (p : ℕ) (ty : EventType)
    (hp : p ≠ 0) (hpn : p ≤ data.length) (h : firstSet (data.drop p) = none) :
    get_next_event ⟨⟨data, L⟩, p, ty⟩ =
      ({ type := EventType.IndexHole,
         length := ((data.length - p : ℕ) : ℚ) * L + L / 2 },
       ⟨⟨data, L⟩, data.length + 1, EventType.IndexHole⟩) := by
  simp [get_next_event, h, hp, hpn]

theorem get_next_event_end_zero (data : List Bool) (L : ℚ) (ty : EventType)
    (h : firstSet data = none) :
    get_next_event ⟨⟨data, L⟩, 0, ty⟩ =
      ({ type := EventType.IndexHole,
         length := -(L / 2) + ((data.length : ℕ) : ℚ) * L + L / 2 },
       ⟨⟨data, L⟩, data.length + 1, EventType.IndexHole⟩) := by
  simp [get_next_event, h]

/-- The event the seek/scan consistency argument pins down: scanning from the
start, the first event whose cumulative offset strictly surpasses `t` is the
first flux transition strictly beyond the seek landing bit, or the
end-of-segment index hole if there is none.  (`k0` is the bit index computed
by `seek_to`.) -/
def seekScanTarget (data : List Bool) (L t : ℚ) : EventType × ℚ :=
  let k0 : ℕ := (⌊(t - L / 2) / L⌋).toNat
  match firstSet (data.drop (k0 + 1)) with
  | some m => (EventType.FluxTransition, (((k0 + 1 + m : ℕ) : ℚ) + 1 / 2) * L)
  | none => (EventType.IndexHole, L * (data.length : ℚ))

theorem firstSet_drop_some (data : List Bool) (p k : ℕ)
    (h : firstSet (data.drop p) = some k) :
    p + k < data.length ∧ data.getD (p + k) false = true ∧
      ∀ i, p ≤ i → i < p + k → data.getD i false = false := by
  rcases (firstSet_eq_some _ _).mp h with ⟨hlen, hget, hlt⟩
  rw [List.length_drop] at hlen
  rw [getD_drop] at hget
  refine ⟨by omega, hget, ?_⟩
  intro i hpi hik
  have hx := hlt (i - p) (by omega)
  rw [getD_drop] at hx
  rwa [show p + (i - p) = i by omega] at hx

theorem firstSet_drop_some_intro (data : List Bool) (q j : ℕ)
    (hjn : j < data.length) (hqj : q ≤ j) (hget : data.getD j false = true)
    (hlt : ∀ i, q ≤ i → i < j → data.getD i false = false) :
    firstSet (data.drop q) = some (j - q) := by
  refine (firstSet_eq_some _ _).mpr ⟨?_, ?_, ?_⟩
  · rw [List.length_drop]; omega
  · rw [getD_drop, show q + (j - q) = j by omega]; exact hget
  · intro i hi
    rw [getD_drop]
    exact hlt (q + i) (by omega) (by omega)

theorem firstSet_drop_none_mono (data : List Bool) (p q : ℕ) (hpq : p ≤ q)
    (h : firstSet (data.drop p) = none) : firstSet (data.drop q) = none := by
  rw [firstSet_eq_none] at h ⊢
  intro i
  have hx := h (q - p + i)
  rw [getD_drop] at hx ⊢
  rwa [show p + (q - p + i) = q + i by omega] at hx

/-- The bit index computed by `seek_to` never lands past the requested time:
`(k0 + 1/2) * L ≤ t` whenever `L/2 ≤ t`. -/
theorem k0_mul_le (L t : ℚ) (hL : 0 < L) (ht : L / 2 ≤ t) :
    (((⌊(t - L / 2) / L⌋).toNat : ℚ) + 1 / 2) * L ≤ t := by
  have hrel : (0:ℚ) ≤ (t - L / 2) / L := div_nonneg (by linarith) (le_of_lt hL)
  have hnn : (0:ℤ) ≤ ⌊(t - L / 2) / L⌋ := Int.floor_nonneg.mpr hrel
  have hcast : (((⌊(t - L / 2) / L⌋).toNat : ℚ)) = ((⌊(t - L / 2) / L⌋ : ℤ) : ℚ) := by
    exact_mod_cast Int.toNat_of_nonneg hnn
  rw [hcast]
  have hle : ((⌊(t - L / 2) / L⌋ : ℤ) : ℚ) ≤ (t - L / 2) / L := Int.floor_le _
  have hle2 : ((⌊(t - L / 2) / L⌋ : ℤ) : ℚ) * L ≤ t - L / 2 := by
    calc ((⌊(t - L / 2) / L⌋ : ℤ) : ℚ) * L ≤ ((t - L / 2) / L) * L :=
          mul_le_mul_of_nonneg_right hle (le_of_lt hL)
      _ = t - L / 2 := div_mul_cancel₀ _ (ne_of_gt hL)
  linarith

/-- Any cursor position whose leading-edge time does not exceed `t` is at most
the position `seek_to` computes. -/
theorem le_k0_add_one (L t : ℚ) (hL : 0 < L) (p : ℕ)
    (hacc : ((p : ℚ) - 1 / 2) * L ≤ t) :
    p ≤ (⌊(t - L / 2) / L⌋).toNat + 1 := by
  have h1 : ((p : ℚ) - 1) * L ≤ t - L / 2 := by nlinarith
  have h2 : ((p : ℚ) - 1) ≤ (t - L / 2) / L := by
    rw [le_div_iff₀ hL]
    exact h1
  have h3 : ((p : ℤ) - 1) ≤ ⌊(t - L / 2) / L⌋ := by
    apply Int.le_floor.mpr
    push_cast
    exact h2
  have h4 : ⌊(t - L / 2) / L⌋ ≤ ((⌊(t - L / 2) / L⌋).toNat : ℤ) := Int.self_le_toNat _
  omega

/-- A flux transition whose centre lies strictly beyond `t` lies strictly
beyond the bit `seek_to` lands on. -/
theorem k0_add_one_le_of_gt (L t : ℚ) (hL : 0 < L) (ht : L / 2 ≤ t) (j : ℕ)
    (hj : t < ((j : ℚ) + 1 / 2) * L) :
    (⌊(t - L / 2) / L⌋).toNat + 1 ≤ j := by
  have h1 := k0_mul_le L t hL ht
  have h2 : (((⌊(t - L / 2) / L⌋).toNat : ℚ) + 1 / 2) * L < ((j : ℚ) + 1 / 2) * L :=
    lt_of_le_of_lt h1 hj
  have h3 : ((⌊(t - L / 2) / L⌋).toNat : ℚ) < (j : ℚ) := by
    by_contra hc
    push_neg at hc
    have : ((j : ℚ) + 1 / 2) * L ≤ (((⌊(t - L / 2) / L⌋).toNat : ℚ) + 1 / 2) * L := by
      apply mul_le_mul_of_nonneg_right _ (le_of_lt hL)
      linarith
    linarith
  exact_mod_cast Nat.succ_le_of_lt (by exact_mod_cast h3)

/-- Scanning from any intermediate cursor position whose accumulated time has
not yet surpassed `t` reaches the event pinned down by `seekScanTarget`. -/
theorem scanUntil_spec (data : List Bool) (L t : ℚ) (hL : 0 < L)
    (ht2 : t < L * (data.length : ℚ)) :
    ∀ fuel p, 1 ≤ p → p ≤ data.length →
      ((p : ℚ) - 1 / 2) * L ≤ t → data.length + 1 - p ≤ fuel →
      ∃ e, scanUntil t fuel ⟨⟨data, L⟩, p, EventType.FluxTransition⟩ (((p : ℚ) - 1 / 2) * L)
            = some (e, (seekScanTarget data L t).2)
          ∧ e.type = (seekScanTarget data L t).1 := by
  intro fuel
  induction fuel with
  | zero =>
      intro p hp1 hpn hacc hfuel
      omega
  | succ fuel ih =>
      intro p hp1 hpn hacc hfuel
      have hp0 : p ≠ 0 := by omega
      have hp1Q : (1 : ℚ) ≤ (p : ℚ) := by exact_mod_cast hp1
      have htL2 : L / 2 ≤ t := by nlinarith
      rw [scanUntil_succ]
      cases h : firstSet (data.drop p) with
      | some k =>
          obtain ⟨hjn, hget, hprev⟩ := firstSet_drop_some data p k h
          rw [get_next_event_found data L p k _ hp0 h]
          dsimp only
          have hacc' : ((p : ℚ) - 1 / 2) * L + ((k + 1 : ℕ) : ℚ) * L
              = (((p + k : ℕ) : ℚ) + 1 / 2) * L := by push_cast; ring
          by_cases hs : ((p : ℚ) - 1 / 2) * L + ((k + 1 : ℕ) : ℚ) * L > t
          · rw [if_pos hs]
            rw [hacc'] at hs
            have hj_ge : (⌊(t - L / 2) / L⌋).toNat + 1 ≤ p + k := by
              apply k0_add_one_le_of_gt L t hL htL2 (p + k)
              exact_mod_cast hs
            have hT : firstSet (data.drop ((⌊(t - L / 2) / L⌋).toNat + 1))
                = some ((p + k) - ((⌊(t - L / 2) / L⌋).toNat + 1)) := by
              apply firstSet_drop_some_intro data _ (p + k) hjn hj_ge hget
              intro i h1 h2
              have hp_le : p ≤ (⌊(t - L / 2) / L⌋).toNat + 1 := le_k0_add_one L t hL p hacc
              exact hprev i (by omega) h2
            refine ⟨⟨EventType.FluxTransition, ((k + 1 : ℕ) : ℚ) * L⟩, ?_, ?_⟩
            · rw [hacc']
              have h2 : (seekScanTarget data L t).2 = (((p + k : ℕ) : ℚ) + 1 / 2) * L := by
                simp only [seekScanTarget, hT]
                congr 2
                push_cast
                have : (⌊(t - L / 2) / L⌋).toNat + 1 ≤ p + k := hj_ge
                push_cast [Nat.cast_sub this]
                ring
              rw [h2]
            · simp only [seekScanTarget, hT]
          · rw [if_neg hs]
            push_neg at hs
            rw [hacc'] at hs ⊢
            have hnext : p + k + 1 ≤ data.length := hjn
            have hcast : (((p + k : ℕ) : ℚ) + 1 / 2) * L
                = (((p + k + 1 : ℕ) : ℚ) - 1 / 2) * L := by push_cast; ring
            rw [hcast]
            exact ih (p + k + 1) (by omega) hnext (hcast ▸ hs) (by omega)
      | none =>
          rw [get_next_event_end data L p _ hp0 hpn h]
          dsimp only
          have hsum : ((p : ℚ) - 1 / 2) * L + (((data.length - p : ℕ) : ℚ) * L + L / 2)
              = L * (data.length : ℚ) := by
            rw [Nat.cast_sub hpn]
            ring
          rw [hsum, if_pos ht2]
          have hT : firstSet (data.drop ((⌊(t - L / 2) / L⌋).toNat + 1)) = none :=
            firstSet_drop_none_mono data p _ (le_k0_add_one L t hL p hacc) h
          refine ⟨⟨EventType.IndexHole, ((data.length - p : ℕ) : ℚ) * L + L / 2⟩, ?_, ?_⟩
          · have h2 : (seekScanTarget data L t).2 = L * (data.length : ℚ) := by
              simp only [seekScanTarget, hT]
            rw [h2]
          · simp only [seekScanTarget, hT]

/-- C1: For every `PCMSegment` and every time `t` in `[0, segment length)`,
calling `seek_to(t)` followed by `get_next_event()` reports the same next
event — same type and same cumulative offset from the segment start — as
resetting the source to the start and repeatedly calling `get_next_event()`,
summing the returned lengths, until the accumulated time first surpasses
`t`. -/
theorem seek_matches_scan (data : List Bool) (L t : ℚ)
    (hL : 0 < L) (ht : 0 ≤ t) (ht2 : t < L * (data.length : ℚ)) :
    ∃ e c,
      scanUntil t (data.length + 2) (reset ⟨data, L⟩) 0 = some (e, c) ∧
      e.type = (get_next_event (seek_to (reset ⟨data, L⟩) t).2).1.type ∧
      c = (seek_to (reset ⟨data, L⟩) t).1
            + (get_next_event (seek_to (reset ⟨data, L⟩) t).2).1.length := by
  have hn : 0 < data.length := by
    rcases Nat.eq_zero_or_pos data.length with h0 | h0
    · rw [h0] at ht2
      norm_num at ht2
      linarith
    · exact h0
  have hnotbig : ¬ t ≥ L * (data.length : ℚ) := not_le.mpr ht2
  have hsplit : data.length + 2 = (data.length + 1) + 1 := rfl
  by_cases hsmall : t < L / 2
  · -- requested time before the first half bit: seek lands on bit zero,
    -- which is exactly the reset state; the very first scanned event surpasses t.
    have hseek : seek_to (reset ⟨data, L⟩) t = (0, reset ⟨data, L⟩) := by
      simp only [seek_to, reset, get_length]
      rw [if_neg hnotbig, if_pos hsmall]
    have hsurp : (0:ℚ) + (get_next_event (reset ⟨data, L⟩)).1.length > t := by
      cases h0 : firstSet data with
      | some j =>
          rw [show (reset ⟨data, L⟩) = ⟨⟨data, L⟩, 0, EventType.FluxTransition⟩ from rfl,
            get_next_event_found_zero data L j _ h0]
          dsimp only
          have h1 : (1:ℚ) ≤ ((j + 1 : ℕ) : ℚ) := by exact_mod_cast Nat.succ_le_succ (Nat.zero_le j)
          nlinarith
      | none =>
          rw [show (reset ⟨data, L⟩) = ⟨⟨data, L⟩, 0, EventType.FluxTransition⟩ from rfl,
            get_next_event_end_zero data L _ h0]
          dsimp only
          nlinarith [ht2]
    rw [hseek, hsplit, scanUntil_succ]
    dsimp only
    rw [if_pos hsurp]
    exact ⟨_, _, rfl, rfl, rfl⟩
  · -- requested time at or past the first half bit
    push_neg at hsmall
    set k0 : ℕ := (⌊(t - L / 2) / L⌋).toNat with hk0def
    have hk0t : ((k0 : ℚ) + 1 / 2) * L ≤ t := k0_mul_le L t hL hsmall
    have hk1n : k0 + 1 ≤ data.length := by
      have h1 : ((k0 : ℚ) + 1 / 2) * L < L * (data.length : ℚ) := lt_of_le_of_lt hk0t ht2
      have h2 : (k0 : ℚ) < (data.length : ℚ) := by nlinarith
      have h3 : k0 < data.length := by exact_mod_cast h2
      omega
    have hseek : seek_to (reset ⟨data, L⟩) t
        = (L / 2 + L * (k0 : ℚ), ⟨⟨data, L⟩, k0 + 1, EventType.FluxTransition⟩) := by
      simp only [seek_to, reset, get_length]
      rw [if_neg hnotbig, if_neg (not_lt.mpr hsmall)]
      have h1 : (1 + k0 - 1 : ℕ) = k0 := by omega
      rw [h1]
      have h2 : (1 + k0 : ℕ) = k0 + 1 := by omega
      rw [h2]
    -- the scan side reaches the target event
    have hscan : ∃ e, scanUntil t (data.length + 2) (reset ⟨data, L⟩) 0
          = some (e, (seekScanTarget data L t).2)
        ∧ e.type = (seekScanTarget data L t).1 := by
      rw [hsplit, scanUntil_succ]
      cases h0 : firstSet data with
      | some j1 =>
          obtain ⟨hj1n, hget1, hprev1⟩ := firstSet_drop_some data 0 j1
            (by rw [List.drop_zero]; exact h0)
          rw [show (reset ⟨data, L⟩) = ⟨⟨data, L⟩, 0, EventType.FluxTransition⟩ from rfl,
            get_next_event_found_zero data L j1 _ h0]
          dsimp only
          have hacc1 : (0:ℚ) + (-(L / 2) + ((j1 + 1 : ℕ) : ℚ) * L)
              = (((j1 : ℕ) : ℚ) + 1 / 2) * L := by push_cast; ring
          by_cases hs1 : (0:ℚ) + (-(L / 2) + ((j1 + 1 : ℕ) : ℚ) * L) > t
          · rw [if_pos hs1]
            rw [hacc1] at hs1
            have hj_ge : k0 + 1 ≤ j1 := k0_add_one_le_of_gt L t hL hsmall j1 hs1
            have hT : firstSet (data.drop (k0 + 1)) = some (j1 - (k0 + 1)) := by
              apply firstSet_drop_some_intro data (k0 + 1) j1 (by omega) hj_ge
              · exact (by simpa using hget1)
              · intro i hi1 hi2
                exact hprev1 i (Nat.zero_le i) (by omega)
            refine ⟨⟨EventType.FluxTransition, -(L / 2) + ((j1 + 1 : ℕ) : ℚ) * L⟩, ?_, ?_⟩
            · have h2 : (seekScanTarget data L t).2 = (((j1 : ℕ) : ℚ) + 1 / 2) * L := by
                simp only [seekScanTarget, hT]
                congr 2
                push_cast [Nat.cast_sub hj_ge]
                ring
              rw [h2, ← hacc1]
            · simp only [seekScanTarget, hT]
          · rw [if_neg hs1]
            push_neg at hs1
            rw [hacc1] at hs1
            have hcast : (0:ℚ) + (-(L / 2) + ((j1 + 1 : ℕ) : ℚ) * L)
                = (((j1 + 1 : ℕ) : ℚ) - 1 / 2) * L := by push_cast; ring
            rw [hcast]
            apply scanUntil_spec data L t hL ht2 (data.length + 1) (j1 + 1)
              (by omega) (by omega)
            · have : (((j1 + 1 : ℕ) : ℚ) - 1 / 2) * L = (((j1 : ℕ) : ℚ) + 1 / 2) * L := by
                push_cast; ring
              rw [this]
              exact hs1
            · omega
      | none =>
          rw [show (reset ⟨data, L⟩) = ⟨⟨data, L⟩, 0, EventType.FluxTransition⟩ from rfl,
            get_next_event_end_zero data L _ h0]
          dsimp only
          have hacc1 : (0:ℚ) + (-(L / 2) + ((data.length : ℕ) : ℚ) * L + L / 2)
              = L * (data.length : ℚ) := by ring
          rw [hacc1, if_pos ht2]
          have hT : firstSet (data.drop (k0 + 1)) = none :=
            firstSet_drop_none_mono data 0 (k0 + 1) (Nat.zero_le _)
              (by rw [List.drop_zero]; exact h0)
          refine ⟨⟨EventType.IndexHole, -(L / 2) + ((data.length : ℕ) : ℚ) * L + L / 2⟩, ?_, ?_⟩
          · have h2 : (seekScanTarget data L t).2 = L * (data.length : ℚ) := by
              simp only [seekScanTarget, hT]
            rw [h2]
          · simp only [seekScanTarget, hT]
    -- the seek side computes the same target event
    obtain ⟨e, hsc, hty⟩ := hscan
    rw [hseek]
    dsimp only
    cases hT : firstSet (data.drop (k0 + 1)) with
    | some m =>
        rw [get_next_event_found data L (k0 + 1) m _ (by omega) hT]
        dsimp only
        refine ⟨e, (seekScanTarget data L t).2, hsc, ?_, ?_⟩
        · rw [hty]
          simp only [seekScanTarget, hT]
        · simp only [seekScanTarget, hT]
          push_cast
          ring
    | none =>
        rw [get_next_event_end data L (k0 + 1) _ (by omega) hk1n hT]
        dsimp only
        refine ⟨e, (seekScanTarget data L t).2, hsc, ?_, ?_⟩
        · rw [hty]
          simp only [seekScanTarget, hT]
        · simp only [seekScanTarget, hT]
          push_cast [Nat.cast_sub hk1n]
          ring

/-- Witness for `seek_matches_scan`: a four-bit segment with transitions at
bits 1 and 3, bit length 2, sought at `t = 5`. -/
theorem seek_matches_scan_witness :
    ∃ e c,
      scanUntil 5 (([false, true, false, true] : List Bool).length + 2)
          (reset ⟨[false, true, false, true], 2⟩) 0 = some (e, c) ∧
      e.type = (get_next_event (seek_to (reset ⟨[false, true, false, true], 2⟩) 5).2).1.type ∧
      c = (seek_to (reset ⟨[false, true, false, true], 2⟩) 5).1
            + (get_next_event (seek_to (reset ⟨[false, true, false, true], 2⟩) 5).2).1.length :=
  seek_matches_scan [false, true, false, true] 2 5 (by norm_num) (by norm_num) (by norm_num)

end CLK.PCMSegmentEventSource

namespace CLK

/-! ## Drive (Drive.cpp)

The `Drive` state machine.  `HeadPosition` stores quarter-track units in an
`int` (Track.hpp); it is embedded as `ℤ`.  The embedded state carries the
fields the verified claims touch; the timing, write-back and observer
plumbing of `Drive` act on fields disjoint from these. -/

/-- A disk as `Drive` sees it: only its read-only flag matters here
(`Disk::get_is_read_only`). -/
structure DiskModel where
  is_read_only : Bool
deriving DecidableEq, Repr

/-- The activity-observer drive events of `Activity::Observer` used by
`Drive::step`. -/
inductive DriveEvent
  | StepNormal
  | StepBelowZero
deriving DecidableEq, Repr

/-- `ClockingHint::Preference` (the two values `Drive::preferred_clocking`
can return). -/
inductive ClockingPreference
  | None
  | JustInTime
deriving DecidableEq, Repr

/-- The `Drive` state (Drive.cpp / Drive.hpp members used by the claims). -/
structure Drive where
  has_disk : Bool
  disk : Option DiskModel
  motor_is_on : Bool
  ready_index_count : ℕ
  cycles_since_index_hole : ℕ
  head_position : ℤ
  head : ℤ
  available_heads : ℤ
  has_track : Bool
deriving DecidableEq, Repr

namespace Drive

/-- A freshly constructed `Drive` with `number_of_heads` heads: no disk,
motor off, ready count zero, head at track zero. -/
def init (number_of_heads : ℤ) : Drive :=
  { has_disk := false
    disk := none
    motor_is_on := false
    ready_index_count := 0
    cycles_since_index_hole := 0
    head_position := 0
    head := 0
    available_heads := number_of_heads
    has_track := false }

/-- `Drive::get_is_ready()`: `ready_index_count_ == 2`. -/
def get_is_ready (d : Drive) : Bool :=
  d.ready_index_count == 2

/-- `Drive::get_is_read_only()`: the disk's flag if a disk is present,
otherwise `true`. -/
def get_is_read_only (d : Drive) : Bool :=
  match d.disk with
  | some disk => disk.is_read_only
  | none => true

/-- `Drive::preferred_clocking()`:
`(!motor_is_on_ || !has_disk_) ? None : JustInTime`. -/
def preferred_clocking (d : Drive) : ClockingPreference :=
  if !d.motor_is_on || !d.has_disk then ClockingPreference.None
  else ClockingPreference.JustInTime

/-- `Drive::set_disk`: swap the disk, record its presence, and invalidate the
cached track. -/
def set_disk (d : Drive) (disk : Option DiskModel) : Drive :=
  { d with disk := disk, has_disk := disk.isSome, has_track := false }

/-- `Drive::set_motor_on`: on an actual change of state, record it; turning
the motor off zeroes the ready counter. -/
def set_motor_on (d : Drive) (motor_is_on : Bool) : Drive :=
  if d.motor_is_on ≠ motor_is_on then
    { d with
        motor_is_on := motor_is_on
        ready_index_count := if motor_is_on then d.ready_index_count else 0 }
  else d

/-- `Drive::step(offset)`: add the offset to the head position, clamping at
zero; returns the drive event announced to the activity observer
(`StepBelowZero` when the clamp fired, `StepNormal` otherwise).  A move
flushes the cached track. -/
def step (d : Drive) (offset : ℤ) : Drive × DriveEvent :=
  let old_head_position := d.head_position
  let moved := d.head_position + offset
  let (new_position, ev) :=
    if moved < 0 then ((0 : ℤ), DriveEvent.StepBelowZero)
    else (moved, DriveEvent.StepNormal)
  ({ d with
      head_position := new_position
      has_track := if new_position ≠ old_head_position then false else d.has_track },
   ev)

/-- `Drive::set_head(head)`: `head = std::min(head, available_heads_ - 1)`;
on a change, store it and flush the cached track.  (The source has no lower
clamp.) -/
def set_head (d : Drive) (head : ℤ) : Drive :=
  let head' := min head (d.available_heads - 1)
  if head' ≠ d.head then { d with head := head', has_track := false }
  else d

/-- `Drive::process_next_event()` as far as the ready counter and index-hole
cycle counter are concerned: an `IndexHole` event increments the debounce
counter (capped at 2) and restarts the cycle count. -/
def process_next_event (d : Drive) (ev : EventType) : Drive :=
  match ev with
  | EventType.IndexHole =>
      { d with
          ready_index_count :=
            if d.ready_index_count < 2 then d.ready_index_count + 1
            else d.ready_index_count
          cycles_since_index_hole := 0 }
  | EventType.FluxTransition => d

/-- `Drive::run_for(cycles)`: guarded by `has_disk_ && motor_is_on_`; when
the guard fails the call returns without touching any state.  When it holds,
the timed event loop delivers a sequence of track events, each processed by
`process_next_event`; the event sequence itself is supplied here as an
oracle (it is produced by the track and the timing machinery). -/
def run_for (d : Drive) (events : List EventType) : Drive :=
  if d.has_disk && d.motor_is_on then events.foldl process_next_event d
  else d

/-! ### Drive call traces (for the temporal claim C2) -/

/-- One externally driven operation on a `Drive`. -/
inductive Op
  | setDisk (disk : Option DiskModel)
  | setMotorOn (motor_is_on : Bool)
  | runFor (events : List EventType)
  | stepBy (offset : ℤ)
  | setHead (head : ℤ)
deriving DecidableEq, Repr

/-- Apply one operation. -/
def applyOp (d : Drive) : Op → Drive
  | Op.setDisk disk => d.set_disk disk
  | Op.setMotorOn m => d.set_motor_on m
  | Op.runFor evs => d.run_for evs
  | Op.stepBy o => (d.step o).1
  | Op.setHead h => d.set_head h

/-- Apply a list of operations in order. -/
def applyOps (d : Drive) (ops : List Op) : Drive :=
  ops.foldl applyOp d

/-- Number of `IndexHole` events in a list. -/
def countIndexHoles : List EventType → ℕ
  | [] => 0
  | EventType.IndexHole :: evs => countIndexHoles evs + 1
  | EventType.FluxTransition :: evs => countIndexHoles evs

/-- Specification-level ghost: the number of index holes processed since the
motor was last switched on (reset whenever the motor turns off, accumulated
only while a disk is present and the motor is on). -/
def ghostStep (s : Drive × ℕ) (op : Op) : Drive × ℕ :=
  (applyOp s.1 op,
    match op with
    | Op.setMotorOn m => if s.1.motor_is_on ≠ m ∧ m = false then 0 else s.2
    | Op.runFor evs =>
        if s.1.has_disk && s.1.motor_is_on then s.2 + countIndexHoles evs else s.2
    | _ => s.2)

/-- Index holes seen since motor-on along a trace from a fresh drive. -/
def indexHolesSinceMotorOn (number_of_heads : ℤ) (ops : List Op) : ℕ :=
  (ops.foldl ghostStep (init number_of_heads, 0)).2

end Drive

end CLK

namespace CLK.Drive

/-- C10: `get_is_read_only` returns the disk's read-only flag when a disk is
present and `true` when the drive is empty: an empty drive always reports
itself as write-protected. -/
theorem get_is_read_only_spec (d : Drive) :
    d.get_is_read_only = (d.disk.map DiskModel.is_read_only).getD true := by
  cases hd : d.disk <;> simp [get_is_read_only, hd]

/-- C5 counterexample: the claim asserts `set_head` clamps from below to 0,
but the source applies only `std::min(head, available_heads_ - 1)`; with one
available head, `set_head(-1)` stores `-1`, which does not lie in
`[0, available_heads_)`. -/
theorem set_head_no_lower_clamp :
    ((init 1).set_head (-1)).head = -1 ∧ ¬ (0 ≤ ((init 1).set_head (-1)).head) := by
  constructor <;> decide

/-- C5 (amended): `set_head(h)` stores `min h (available_heads_ - 1)`: it is
clamped from above to `available_heads_ - 1`, but is not clamped from below
(a negative head index is stored unchanged). -/
theorem set_head_spec (d : Drive) (h : ℤ) :
    (d.set_head h).head = min h (d.available_heads - 1) := by
  unfold set_head
  dsimp only
  split_ifs with hne
  · rfl
  · push_neg at hne
    exact hne.symm

/-- C6: `step(offset)` adds the offset to `head_position_`, clamping at zero;
the drive event announced to the activity observer is `StepBelowZero`
exactly when the clamp fired and `StepNormal` otherwise. -/
theorem step_spec (d : Drive) (offset : ℤ) :
    (d.step offset).1.head_position = max (d.head_position + offset) 0 ∧
    (d.step offset).2 = (if d.head_position + offset < 0 then DriveEvent.StepBelowZero
      else DriveEvent.StepNormal) := by
  unfold step
  dsimp only
  split_ifs with h
  · exact ⟨(max_eq_right (le_of_lt h)).symm, rfl⟩
  · push_neg at h
    exact ⟨(max_eq_left h).symm, rfl⟩

/-- C9: with no disk inserted or the motor off, `run_for` is a no-op leaving
the whole drive state unchanged, and `preferred_clocking()` returns `None`
exactly in those situations. -/
theorem run_for_no_op (d : Drive) (events : List EventType) :
    ((d.has_disk && d.motor_is_on) = false → d.run_for events = d) ∧
    (d.preferred_clocking = ClockingPreference.None ↔
      (d.has_disk && d.motor_is_on) = false) := by
  constructor
  · intro h
    unfold run_for
    rw [h]
    rfl
  · unfold preferred_clocking
    cases hd : d.has_disk <;> cases hm : d.motor_is_on <;> simp

/-- Witness for `run_for_no_op`: a fresh drive has no disk, so `run_for` on
an index-hole event changes nothing and the preferred clocking is `None`. -/
theorem run_for_no_op_witness :
    (init 1).run_for [EventType.IndexHole] = init 1 ∧
    (init 1).preferred_clocking = ClockingPreference.None :=
  ⟨(run_for_no_op (init 1) [EventType.IndexHole]).1 (by decide),
   (run_for_no_op (init 1) [EventType.IndexHole]).2.mpr (by decide)⟩

/-! ### The ready-counter invariant (C2) -/

theorem set_head_count (d : Drive) (h : ℤ) :
    (d.set_head h).ready_index_count = d.ready_index_count := by
  unfold set_head
  dsimp only
  split_ifs <;> rfl

theorem set_head_motor (d : Drive) (h : ℤ) :
    (d.set_head h).motor_is_on = d.motor_is_on := by
  unfold set_head
  dsimp only
  split_ifs <;> rfl

theorem set_motor_on_count (d : Drive) (m : Bool) :
    (d.set_motor_on m).ready_index_count =
      if d.motor_is_on ≠ m ∧ m = false then 0 else d.ready_index_count := by
  unfold set_motor_on
  by_cases h : d.motor_is_on ≠ m
  · rw [if_pos h]
    cases m <;> simp [h]
  · rw [if_neg h]
    push_neg at h
    simp [h]

theorem set_motor_on_motor (d : Drive) (m : Bool) :
    (d.set_motor_on m).motor_is_on = m := by
  unfold set_motor_on
  by_cases h : d.motor_is_on ≠ m
  · rw [if_pos h]
  · rw [if_neg h]
    exact not_ne_iff.mp h

theorem process_next_event_motor (d : Drive) (ev : EventType) :
    (process_next_event d ev).motor_is_on = d.motor_is_on := by
  cases ev <;> rfl

theorem process_next_event_count (d : Drive) (g : ℕ)
    (hc : d.ready_index_count = min 2 g) :
    (process_next_event d EventType.IndexHole).ready_index_count = min 2 (g + 1) := by
  simp only [process_next_event]
  rw [hc]
  split_ifs with h <;> omega

theorem process_fold (evs : List EventType) (d : Drive) (g : ℕ)
    (hc : d.ready_index_count = min 2 g) :
    (evs.foldl process_next_event d).ready_index_count
        = min 2 (g + countIndexHoles evs) ∧
    (evs.foldl process_next_event d).motor_is_on = d.motor_is_on := by
  induction evs generalizing d g with
  | nil =>
      exact ⟨by simpa [countIndexHoles] using hc, rfl⟩
  | cons ev evs ih =>
      cases ev with
      | IndexHole =>
          obtain ⟨hA, hB⟩ := ih (process_next_event d EventType.IndexHole) (g + 1)
            (process_next_event_count d g hc)
          refine ⟨?_, ?_⟩
          · rw [List.foldl_cons, hA]
            have : countIndexHoles (EventType.IndexHole :: evs)
                = countIndexHoles evs + 1 := rfl
            rw [this]
            congr 1
            omega
          · rw [List.foldl_cons, hB, process_next_event_motor]
      | FluxTransition =>
          obtain ⟨hA, hB⟩ := ih d g hc
          exact ⟨hA, hB⟩

theorem ghost_invariant (ops : List Op) (s : Drive × ℕ)
    (h1 : s.1.ready_index_count = min 2 s.2)
    (h2 : s.1.motor_is_on = false → s.2 = 0) :
    (ops.foldl ghostStep s).1.ready_index_count = min 2 (ops.foldl ghostStep s).2 ∧
    ((ops.foldl ghostStep s).1.motor_is_on = false → (ops.foldl ghostStep s).2 = 0) ∧
    (ops.foldl ghostStep s).1 = applyOps s.1 ops := by
  induction ops generalizing s with
  | nil => exact ⟨h1, h2, rfl⟩
  | cons op ops ih =>
      rw [List.foldl_cons]
      have hfst : (ghostStep s op).1 = applyOp s.1 op := rfl
      have happly : applyOps s.1 (op :: ops) = applyOps (applyOp s.1 op) ops := rfl
      have hmain : (ghostStep s op).1.ready_index_count = min 2 (ghostStep s op).2 ∧
          ((ghostStep s op).1.motor_is_on = false → (ghostStep s op).2 = 0) := by
        cases op with
        | setDisk disk => exact ⟨h1, h2⟩
        | setMotorOn m =>
            have hD : (ghostStep s (Op.setMotorOn m)).1 = s.1.set_motor_on m := rfl
            have hG : (ghostStep s (Op.setMotorOn m)).2
                = if s.1.motor_is_on ≠ m ∧ m = false then 0 else s.2 := rfl
            rw [hD, hG, set_motor_on_count]
            by_cases hchg : s.1.motor_is_on ≠ m
            · cases m with
              | false =>
                  rw [if_pos ⟨hchg, rfl⟩, if_pos ⟨hchg, rfl⟩]
                  exact ⟨rfl, fun _ => rfl⟩
              | true =>
                  rw [if_neg (by simp), if_neg (by simp)]
                  refine ⟨h1, ?_⟩
                  intro hcontra
                  rw [set_motor_on_motor] at hcontra
                  exact absurd hcontra (by simp)
            · push_neg at hchg
              rw [if_neg (by simp [hchg]), if_neg (by simp [hchg])]
              refine ⟨h1, ?_⟩
              intro hm
              rw [set_motor_on_motor] at hm
              exact h2 (hchg.trans hm)
        | runFor evs =>
            have hD : (ghostStep s (Op.runFor evs)).1 = s.1.run_for evs := rfl
            have hG : (ghostStep s (Op.runFor evs)).2
                = if s.1.has_disk && s.1.motor_is_on then s.2 + countIndexHoles evs
                  else s.2 := rfl
            rw [hD, hG]
            unfold run_for
            by_cases hguard : s.1.has_disk && s.1.motor_is_on
            · rw [if_pos hguard, if_pos hguard]
              obtain ⟨hc, hm⟩ := process_fold evs s.1 s.2 h1
              refine ⟨hc, ?_⟩
              intro hmotor
              rw [hm] at hmotor
              have hm2 := Bool.and_elim_right hguard
              rw [hmotor] at hm2
              exact absurd hm2 (by simp)
            · rw [if_neg hguard, if_neg hguard]
              exact ⟨h1, h2⟩
        | stepBy o => exact ⟨h1, h2⟩
        | setHead h =>
            have hD : (ghostStep s (Op.setHead h)).1 = s.1.set_head h := rfl
            have hG : (ghostStep s (Op.setHead h)).2 = s.2 := rfl
            rw [hD, hG, set_head_count]
            exact ⟨h1, fun hm => h2 (by rwa [set_head_motor] at hm)⟩
      obtain ⟨ha, hb, hcf⟩ := ih (ghostStep s op) hmain.1 hmain.2
      exact ⟨ha, hb, by rw [hcf, hfst, happly]⟩

/-- C2: along every call trace from construction, `get_is_ready()` is false
at construction; the ready counter always equals the number of index holes
processed since the motor was switched on, capped at two, so `get_is_ready()`
is true exactly once two `IndexHole` events have been processed after
motor-on; the counter is zero whenever the motor is off; and turning the
motor off resets the counter to zero, making the drive not ready. -/
theorem ready_debounce (H : ℤ) (ops : List Op) :
    (init H).get_is_ready = false ∧
    (applyOps (init H) ops).ready_index_count = min 2 (indexHolesSinceMotorOn H ops) ∧
    ((applyOps (init H) ops).get_is_ready = true ↔ 2 ≤ indexHolesSinceMotorOn H ops) ∧
    ((applyOps (init H) ops).motor_is_on = false →
      (applyOps (init H) ops).ready_index_count = 0) ∧
    ((applyOps (init H) ops).set_motor_on false).ready_index_count = 0 ∧
    ((applyOps (init H) ops).set_motor_on false).get_is_ready = false := by
  obtain ⟨ha, hb, hc⟩ := ghost_invariant ops (init H, 0) (by simp [init]) (fun _ => rfl)
  have hkey : applyOps (init H) ops = (ops.foldl ghostStep (init H, 0)).1 := hc.symm
  have hg : indexHolesSinceMotorOn H ops = (ops.foldl ghostStep (init H, 0)).2 := rfl
  have hcount : (applyOps (init H) ops).ready_index_count
      = min 2 (indexHolesSinceMotorOn H ops) := by
    rw [hkey, hg]; exact ha
  have hmotor0 : (applyOps (init H) ops).motor_is_on = false →
      indexHolesSinceMotorOn H ops = 0 := by
    rw [hkey, hg]; exact hb
  refine ⟨rfl, hcount, ?_, ?_, ?_, ?_⟩
  · rw [get_is_ready, hcount]
    constructor
    · intro h
      have := beq_iff_eq.mp h
      omega
    · intro h
      apply beq_iff_eq.mpr
      omega
  · intro hm
    rw [hcount, hmotor0 hm]
    simp
  · rw [set_motor_on_count]
    by_cases hm : (applyOps (init H) ops).motor_is_on = false
    · rw [if_neg (by simp [hm])]
      rw [hcount, hmotor0 hm]
      simp
    · rw [if_pos ⟨by simpa using hm, rfl⟩]
  · rw [get_is_ready, set_motor_on_count]
    by_cases hm : (applyOps (init H) ops).motor_is_on = false
    · rw [if_neg (by simp [hm])]
      rw [hcount, hmotor0 hm]
      decide
    · rw [if_pos ⟨by simpa using hm, rfl⟩]
      decide

/-- Witness for `ready_debounce`: a trace that inserts a disk, switches the
motor on, observes two index holes (ready), then switches the motor off
(not ready again); the final implication's hypothesis holds by computation. -/
theorem ready_debounce_witness :
    (applyOps (init 1)
        [Op.setDisk (some ⟨false⟩), Op.setMotorOn true,
         Op.runFor [EventType.IndexHole, EventType.IndexHole],
         Op.setMotorOn false]).ready_index_count = 0 ∧
    ((applyOps (init 1)
        [Op.setDisk (some ⟨false⟩), Op.setMotorOn true,
         Op.runFor [EventType.IndexHole, EventType.IndexHole]]).get_is_ready = true) := by
  constructor
  · exact (ready_debounce 1
      [Op.setDisk (some ⟨false⟩), Op.setMotorOn true,
       Op.runFor [EventType.IndexHole, EventType.IndexHole],
       Op.setMotorOn false]).2.2.2.1 (by decide)
  · exact (ready_debounce 1
      [Op.setDisk (some ⟨false⟩), Op.setMotorOn true,
       Op.runFor [EventType.IndexHole, EventType.IndexHole]]).2.2.1.mpr (by decide)

end CLK.Drive

namespace CLK.MFM

/-! ## The MFM encoder (MFM.cpp)

`MFMEncoder::add_byte` spreads the 8 data bits of `input` into the even bit
positions of a 16-bit word and fills each odd (clock) position with the
complement of the OR of its neighbouring data bits, the previous word's last
emitted bit feeding bit 15.  16-bit casts are `% 65536`; `~x & 0xaaaa` on a
16-bit `x` is `(x ^^^ 0xffff) &&& 0xaaaa`. -/

/-- `spread_value` of `MFMEncoder::add_byte`. -/
def spread_value (input : ℕ) : ℕ :=
  ((input &&& 0x01) <<< 0) |||
  ((input &&& 0x02) <<< 1) |||
  ((input &&& 0x04) <<< 2) |||
  ((input &&& 0x08) <<< 3) |||
  ((input &&& 0x10) <<< 4) |||
  ((input &&& 0x20) <<< 5) |||
  ((input &&& 0x40) <<< 6) |||
  ((input &&& 0x80) <<< 7)

/-- `or_bits` of `MFMEncoder::add_byte` (cast to `uint16_t`). -/
def or_bits (last_output input : ℕ) : ℕ :=
  ((spread_value input <<< 1) ||| (spread_value input >>> 1) |||
    (last_output <<< 15)) % 65536

/-- The 16-bit word emitted by `MFMEncoder::add_byte`:
`spread_value | ((~or_bits) & 0xaaaa)`. -/
def mfm_output (last_output input : ℕ) : ℕ :=
  spread_value input ||| ((or_bits last_output input ^^^ 0xffff) &&& 0xaaaa)

/-- `Encoder::output_short`: the 16 bits of a word, most significant first. -/
def output_short_bits (value : ℕ) : List Bool :=
  [value.testBit 15, value.testBit 14, value.testBit 13, value.testBit 12,
   value.testBit 11, value.testBit 10, value.testBit 9, value.testBit 8,
   value.testBit 7, value.testBit 6, value.testBit 5, value.testBit 4,
   value.testBit 3, value.testBit 2, value.testBit 1, value.testBit 0]

/-- A run of data bytes pushed through `MFMEncoder::add_byte`: each call
emits its word and records it in `last_output_`. -/
def add_bytes (last_output : ℕ) : List ℕ → List Bool
  | [] => []
  | input :: rest =>
      output_short_bits (mfm_output last_output input)
        ++ add_bytes (mfm_output last_output input) rest

/-- No two adjacent bits of the stream are both set. -/
def no_adjacent_ones : List Bool → Bool
  | [] => true
  | [_] => true
  | a :: b :: rest => (!(a && b)) && no_adjacent_ones (b :: rest)

/-- A single word respects the MFM rule internally, and its bit 15 is clear
whenever the previously emitted bit was set. -/
def word_ok (last_output input : ℕ) : Bool :=
  no_adjacent_ones (output_short_bits (mfm_output last_output input)) &&
  !(last_output.testBit 0 && (mfm_output last_output input).testBit 15)

theorem lor_mod_two_pow (x y n : ℕ) :
    (x ||| y) % 2 ^ n = x % 2 ^ n ||| y % 2 ^ n := by
  apply Nat.eq_of_testBit_eq
  intro i
  simp [Nat.testBit_mod_two_pow, Nat.testBit_lor, Bool.and_or_distrib_left]

theorem land_mod_two_pow (x m n : ℕ) (hm : m < 2 ^ n) :
    (x % 2 ^ n) &&& m = x &&& m := by
  apply Nat.eq_of_testBit_eq
  intro i
  simp only [Nat.testBit_land, Nat.testBit_mod_two_pow]
  by_cases hi : i < n
  · simp [hi]
  · have hmi : m.testBit i = false := by
      apply Nat.testBit_lt_two_pow
      calc m < 2 ^ n := hm
        _ ≤ 2 ^ i := Nat.pow_le_pow_right (by norm_num) (by omega)
    simp [hmi, hi]

theorem shiftLeft15_mod (last : ℕ) :
    (last <<< 15) % 65536 = ((last % 2) <<< 15) % 65536 := by
  rw [Nat.shiftLeft_eq, Nat.shiftLeft_eq]
  have h : (65536 : ℕ) = 2 * 2 ^ 15 := by norm_num
  rw [h, Nat.mul_mod_mul_right, Nat.mul_mod_mul_right]
  have h2 : last % 2 % 2 = last % 2 := by omega
  rw [h2]

theorem spread_value_mod (input : ℕ) :
    spread_value (input % 256) = spread_value input := by
  unfold spread_value
  have h : (256 : ℕ) = 2 ^ 8 := by norm_num
  rw [h]
  rw [land_mod_two_pow input 0x01 8 (by norm_num),
    land_mod_two_pow input 0x02 8 (by norm_num),
    land_mod_two_pow input 0x04 8 (by norm_num),
    land_mod_two_pow input 0x08 8 (by norm_num),
    land_mod_two_pow input 0x10 8 (by norm_num),
    land_mod_two_pow input 0x20 8 (by norm_num),
    land_mod_two_pow input 0x40 8 (by norm_num),
    land_mod_two_pow input 0x80 8 (by norm_num)]

theorem mfm_output_mod (last input : ℕ) :
    mfm_output last input = mfm_output (last % 2) (input % 256) := by
  unfold mfm_output or_bits
  rw [spread_value_mod]
  have hsplit : ∀ z : ℕ,
      ((spread_value input <<< 1) ||| (spread_value input >>> 1) ||| (z <<< 15)) % 65536
        = ((spread_value input <<< 1) ||| (spread_value input >>> 1)) % 65536
            ||| ((z <<< 15) % 65536) := by
    intro z
    have h : (65536 : ℕ) = 2 ^ 16 := by norm_num
    rw [h, lor_mod_two_pow]
  rw [hsplit, hsplit, shiftLeft15_mod]

theorem testBit_zero_mod_two (last : ℕ) :
    (last % 2).testBit 0 = last.testBit 0 := by
  have h : (2 : ℕ) = 2 ^ 1 := by norm_num
  rw [h, Nat.testBit_mod_two_pow]
  simp

set_option maxRecDepth 4096 in
/-- Every 16-bit word emitted by `add_byte` respects the MFM rule: checked
exhaustively over the byte and the previous bit. -/
theorem word_ok_all (last input : ℕ) : word_ok last input = true := by
  have hcongr : word_ok last input = word_ok (last % 2) (input % 256) := by
    unfold word_ok
    rw [mfm_output_mod, ← testBit_zero_mod_two]
  rw [hcongr]
  have h2 : last % 2 < 2 := Nat.mod_lt _ (by norm_num)
  have h3 : input % 256 < 256 := Nat.mod_lt _ (by norm_num)
  have key : ∀ l, l < 2 → ∀ i, i < 256 → word_ok l i = true := by decide
  exact key _ h2 _ h3

theorem no_adjacent_ones_append (ys : List Bool) (hy : no_adjacent_ones ys = true) :
    ∀ xs, no_adjacent_ones xs = true →
      (∀ a b, xs.getLast? = some a → ys.head? = some b → (a && b) = false) →
      no_adjacent_ones (xs ++ ys) = true := by
  intro xs
  induction xs with
  | nil =>
      intro _ _
      simpa using hy
  | cons a xs ih =>
      intro hx hb
      cases xs with
      | nil =>
          cases ys with
          | nil => simpa using hx
          | cons b ys' =>
              show no_adjacent_ones (a :: b :: ys') = true
              simp only [no_adjacent_ones]
              rw [Bool.and_eq_true]
              refine ⟨?_, hy⟩
              rw [hb a b rfl rfl]
              rfl
      | cons a2 xs' =>
          simp only [no_adjacent_ones] at hx
          rw [Bool.and_eq_true] at hx
          obtain ⟨hab, hx'⟩ := hx
          have hbnd : ∀ x y, (a2 :: xs').getLast? = some x → ys.head? = some y →
              (x && y) = false := by
            intro x y hx1 hy1
            exact hb x y (by rw [List.getLast?_cons_cons]; exact hx1) hy1
          have hrec := ih hx' hbnd
          show no_adjacent_ones (a :: a2 :: (xs' ++ ys)) = true
          simp only [no_adjacent_ones]
          rw [Bool.and_eq_true]
          exact ⟨hab, by simpa using hrec⟩

theorem add_bytes_invariant (bytes : List ℕ) :
    ∀ last_output, no_adjacent_ones (add_bytes last_output bytes) = true ∧
      ∀ b, (add_bytes last_output bytes).head? = some b →
        (last_output.testBit 0 && b) = false := by
  induction bytes with
  | nil =>
      intro last_output
      exact ⟨rfl, fun b hb => by cases hb⟩
  | cons input rest ih =>
      intro last_output
      obtain ⟨ih1, ih2⟩ := ih (mfm_output last_output input)
      have hw := word_ok_all last_output input
      unfold word_ok at hw
      rw [Bool.and_eq_true] at hw
      obtain ⟨hW1, hW2⟩ := hw
      have hW2' : (last_output.testBit 0
          && (mfm_output last_output input).testBit 15) = false := by
        cases hx : (last_output.testBit 0 && (mfm_output last_output input).testBit 15)
        · rfl
        · rw [hx] at hW2
          exact absurd hW2 (by simp)
      constructor
      · show no_adjacent_ones (output_short_bits (mfm_output last_output input)
            ++ add_bytes (mfm_output last_output input) rest) = true
        apply no_adjacent_ones_append _ ih1 _ hW1
        intro a b hga hhb
        have ha : a = (mfm_output last_output input).testBit 0 := by
          have : (output_short_bits (mfm_output last_output input)).getLast?
              = some ((mfm_output last_output input).testBit 0) := rfl
          rw [this] at hga
          exact (Option.some.inj hga).symm
        rw [ha]
        exact ih2 b hhb
      · intro b hb
        have hhead : (add_bytes last_output (input :: rest)).head?
            = some ((mfm_output last_output input).testBit 15) := rfl
        rw [hhead] at hb
        rw [← Option.some.inj hb]
        exact hW2'

/-- C3: For every sequence of data bytes encoded through
`MFMEncoder::add_byte` (no intervening sync or address marks) and any prior
`last_output_`, the emitted bit stream contains no two adjacent bit-cells
that are both 1: each clock bit-cell is set only when both neighbouring data
bit-cells are 0, including across 16-bit word boundaries via the last
previously emitted bit. -/
theorem mfm_no_adjacent_ones (last_output : ℕ) (bytes : List ℕ) :
    no_adjacent_ones (add_bytes last_output bytes) = true :=
  (add_bytes_invariant bytes last_output).1

end CLK.MFM

namespace CLK.MFM

/-! ## Track assembly: `GetTrackWithSectors` (MFM.cpp)

The template `GetTrackWithSectors<T>` drives an encoder (`T` is `FMEncoder`
or `MFMEncoder`) over the sector list and gap configuration; the virtual
dispatch is embedded as a record of encoder operations. -/

/-- Modelled from the spec: the 16-bit CRC generator (`NumberTheory/CRC.hpp`)
is not under `src/`; §4.4 describes "an accompanying CRC generator that is
fed every data byte".  Embedded as the standard CRC-16/CCITT byte update. -/
def crc16_add (crc byte : ℕ) : ℕ :=
  let step := fun v : ℕ =>
    if v.testBit 15 then ((v <<< 1) ^^^ 0x1021) % 65536 else (v <<< 1) % 65536
  step (step (step (step (step (step (step (step ((crc ^^^ (byte <<< 8)) % 65536))))))))

/-- Modelled from the spec: the CRC generator's reset value (`CRC.hpp` is not
under `src/`); the conventional CRC-16/CCITT preset. -/
def crc16_reset_value : ℕ := 0xffff

/-- Modelled from the spec: the encoder constants (`Constants.hpp` is not
under `src/`).  `MFMSync` is the rule-violating `A1` sync pattern, repeated
three times before address marks; `MFMPostSyncCRCValue` primes the CRC as if
the sync bytes had passed through it; the remainder are the standard IBM
address-mark bytes and FM mark words the spec names. -/
def MFMSync : ℕ := 0x4489
def MFMIndexSync : ℕ := 0x5224
def MFMPostSyncCRCValue : ℕ := 0xcdb4
def IndexAddressByte : ℕ := 0xfc
def IDAddressByte : ℕ := 0xfe
def DataAddressByte : ℕ := 0xfb
def DeletedDataAddressByte : ℕ := 0xf8
def FMIndexAddressMark : ℕ := 0xf77a
def FMIDAddressMark : ℕ := 0xf57e
def FMDataAddressMark : ℕ := 0xf56f
def FMDeletedDataAddressMark : ℕ := 0xf56a

/-- A `Sector` as the encoders consume it. -/
structure SectorAddress where
  track : ℕ
  side : ℕ
  sector : ℕ
deriving DecidableEq, Repr

structure Sector where
  address : SectorAddress
  size : ℕ
  samples : List (List ℕ)
  has_header_crc_error : Bool
  has_data_crc_error : Bool
  is_deleted : Bool
deriving DecidableEq, Repr

/-- The state an `Encoder` carries: the target bit vector, the CRC generator,
and (for MFM) `last_output_`. -/
structure EncState where
  target : List Bool
  crc : ℕ
  last_output : ℕ
deriving DecidableEq, Repr

/-- `Encoder::output_short`: push the word's 16 bits, MSB first. -/
def enc_output_short (s : EncState) (value : ℕ) : EncState :=
  { s with target := s.target ++ output_short_bits value }

/-- `MFMEncoder::output_short`: record `last_output_`, then emit. -/
def mfm_output_short (s : EncState) (value : ℕ) : EncState :=
  enc_output_short { s with last_output := value } value

/-- `MFMEncoder::add_byte`. -/
def mfm_add_byte (s : EncState) (input : ℕ) : EncState :=
  mfm_output_short { s with crc := crc16_add s.crc input } (mfm_output s.last_output input)

/-- `MFMEncoder::output_sync`: three sync words, then prime the CRC. -/
def mfm_output_sync (s : EncState) : EncState :=
  let s := mfm_output_short (mfm_output_short (mfm_output_short s MFMSync) MFMSync) MFMSync
  { s with crc := MFMPostSyncCRCValue }

def mfm_add_index_address_mark (s : EncState) : EncState :=
  mfm_add_byte
    (mfm_output_short (mfm_output_short (mfm_output_short s MFMIndexSync) MFMIndexSync)
      MFMIndexSync)
    IndexAddressByte

def mfm_add_ID_address_mark (s : EncState) : EncState :=
  mfm_add_byte (mfm_output_sync s) IDAddressByte

def mfm_add_data_address_mark (s : EncState) : EncState :=
  mfm_add_byte (mfm_output_sync s) DataAddressByte

def mfm_add_deleted_data_address_mark (s : EncState) : EncState :=
  mfm_add_byte (mfm_output_sync s) DeletedDataAddressByte

/-- `FMEncoder::add_byte`: data bits in the even positions, all clock bits
set (`| 0xaaaa`). -/
def fm_add_byte (s : EncState) (input : ℕ) : EncState :=
  enc_output_short { s with crc := crc16_add s.crc input } (spread_value input ||| 0xaaaa)

/-- An FM address mark: reset the CRC, feed it the mark byte, emit the fixed
mark word. -/
def fm_mark (s : EncState) (byte mark : ℕ) : EncState :=
  enc_output_short { s with crc := crc16_add crc16_reset_value byte } mark

/-- The encoder interface `GetTrackWithSectors<T>` is templated over. -/
structure EncoderOps where
  add_byte : EncState → ℕ → EncState
  add_index_address_mark : EncState → EncState
  add_ID_address_mark : EncState → EncState
  add_data_address_mark : EncState → EncState
  add_deleted_data_address_mark : EncState → EncState

/-- `Encoder::add_crc`: emit the CRC high byte, then the low byte XORed with
1 when an incorrect CRC was requested. -/
def EncoderOps.add_crc (ops : EncoderOps) (s : EncState) (incorrectly : Bool) : EncState :=
  let crc_value := s.crc
  ops.add_byte (ops.add_byte s (crc_value >>> 8))
    ((crc_value &&& 0xff) ^^^ (if incorrectly then 1 else 0))

def mfmOps : EncoderOps :=
  { add_byte := mfm_add_byte
    add_index_address_mark := mfm_add_index_address_mark
    add_ID_address_mark := mfm_add_ID_address_mark
    add_data_address_mark := mfm_add_data_address_mark
    add_deleted_data_address_mark := mfm_add_deleted_data_address_mark }

def fmOps : EncoderOps :=
  { add_byte := fm_add_byte
    add_index_address_mark := fun s => fm_mark s IndexAddressByte FMIndexAddressMark
    add_ID_address_mark := fun s => fm_mark s IDAddressByte FMIDAddressMark
    add_data_address_mark := fun s => fm_mark s DataAddressByte FMDataAddressMark
    add_deleted_data_address_mark :=
      fun s => fm_mark s DeletedDataAddressByte FMDeletedDataAddressMark }

/-- A `for` loop adding `count` copies of one byte. -/
def addByteRepeat (ops : EncoderOps) : ℕ → ℕ → EncState → EncState
  | 0, _, s => s
  | count + 1, value, s => addByteRepeat ops count value (ops.add_byte s value)

/-- The `while(segment.data.size() < expected_track_bytes*8) add_byte(0x00)`
padding loop.  Fuel-bounded: both instantiations append 16 bits per call, so
`expected_track_bytes * 8` iterations always suffice (`padLoop_reaches`). -/
def padLoop (ops : EncoderOps) : ℕ → ℕ → EncState → EncState
  | 0, _, s => s
  | fuel + 1, expected_track_bytes, s =>
      if s.target.length < expected_track_bytes * 8 then
        padLoop ops fuel expected_track_bytes (ops.add_byte s 0x00)
      else s

/-- `GetTrackWithSectors<T>` (MFM.cpp): emit the index mark, the post-index
gap, each sector (gaps, ID mark, header, CRC, gaps, data mark, payload padded
to the declared length, CRC, trailing gap), pad with zero bytes to the
expected track length, and clamp the result to 110% of the expected size. -/
def GetTrackWithSectors (ops : EncoderOps) (sectors : List Sector)
    (post_index_address_mark_bytes : ℕ) (post_index_address_mark_value : ℕ)
    (pre_address_mark_bytes : ℕ)
    (post_address_mark_bytes : ℕ) (post_address_mark_value : ℕ)
    (pre_data_mark_bytes : ℕ)
    (post_data_bytes : ℕ) (post_data_value : ℕ)
    (expected_track_bytes : ℕ) : List Bool :=
  let s0 : EncState := { target := [], crc := crc16_reset_value, last_output := 0 }
  let s1 := ops.add_index_address_mark s0
  let s2 := addByteRepeat ops post_index_address_mark_bytes post_index_address_mark_value s1
  let s3 := sectors.foldl (fun s sector =>
    let s := addByteRepeat ops pre_address_mark_bytes 0x00 s
    let s := ops.add_ID_address_mark s
    let s := ops.add_byte s sector.address.track
    let s := ops.add_byte s sector.address.side
    let s := ops.add_byte s sector.address.sector
    let s := ops.add_byte s sector.size
    let s := EncoderOps.add_crc ops s sector.has_header_crc_error
    let s := addByteRepeat ops post_address_mark_bytes post_address_mark_value s
    let s := addByteRepeat ops pre_data_mark_bytes 0x00 s
    let s :=
      if sector.samples.isEmpty then s
      else
        let s := if sector.is_deleted then ops.add_deleted_data_address_mark s
                 else ops.add_data_address_mark s
        let sample0 := sector.samples.headD []
        let declared_length := 128 <<< sector.size
        let upto := min sample0.length declared_length
        let s := (List.range upto).foldl (fun s c => ops.add_byte s (sample0.getD c 0)) s
        let s := addByteRepeat ops (declared_length - upto) 0x00 s
        EncoderOps.add_crc ops s sector.has_data_crc_error
    addByteRepeat ops post_data_bytes post_data_value s) s2
  let padded := padLoop ops (expected_track_bytes * 8) expected_track_bytes s3
  -- allow the amount of data written to be up to 10% more than expected
  let max_size := (expected_track_bytes + expected_track_bytes / 10) * 8
  if padded.target.length > max_size then padded.target.take max_size
  else padded.target

/-- The padding loop's fuel is sufficient whenever `add_byte` appends bits:
with the actual encoders (16 bits per byte) the fuel bound is never hit
before the loop condition turns false. -/
theorem padLoop_reaches (ops : EncoderOps)
    (hgrow : ∀ s value, (ops.add_byte s value).target.length = s.target.length + 16)
    (expected_track_bytes : ℕ) :
    ∀ fuel s, expected_track_bytes * 8 ≤ s.target.length + fuel →
      expected_track_bytes * 8 ≤ (padLoop ops fuel expected_track_bytes s).target.length := by
  intro fuel
  induction fuel with
  | zero =>
      intro s hs
      simpa [padLoop] using hs
  | succ fuel ih =>
      intro s hs
      show expected_track_bytes * 8 ≤
        (if s.target.length < expected_track_bytes * 8 then
          padLoop ops fuel expected_track_bytes (ops.add_byte s 0x00)
         else s).target.length
      split_ifs with hlt
      · apply ih
        rw [hgrow]
        omega
      · omega

/-- `mfm_add_byte` appends exactly 16 bits (discharges `padLoop_reaches`'s
hypothesis for the MFM instantiation). -/
theorem mfm_add_byte_length (s : EncState) (input : ℕ) :
    (mfm_add_byte s input).target.length = s.target.length + 16 := by
  simp [mfm_add_byte, mfm_output_short, enc_output_short, output_short_bits]

/-- C4: for every encoder, sector list and gap/length configuration, the bit
stream returned by `GetTrackWithSectors` is clamped to at most
`(expected_track_bytes + expected_track_bytes/10) * 8` bits: when the
assembled stream exceeds 110% of the expected size it is truncated to
exactly that bound, so the returned bit count never exceeds it. -/
theorem GetTrackWithSectors_length_le (ops : EncoderOps) (sectors : List Sector)
    (post_index_address_mark_bytes post_index_address_mark_value
      pre_address_mark_bytes post_address_mark_bytes post_address_mark_value
      pre_data_mark_bytes post_data_bytes post_data_value
      expected_track_bytes : ℕ) :
    (GetTrackWithSectors ops sectors
        post_index_address_mark_bytes post_index_address_mark_value
        pre_address_mark_bytes post_address_mark_bytes post_address_mark_value
        pre_data_mark_bytes post_data_bytes post_data_value
        expected_track_bytes).length
      ≤ (expected_track_bytes + expected_track_bytes / 10) * 8 := by
  unfold GetTrackWithSectors
  dsimp only
  split_ifs with hbig
  · rw [List.length_take]
    omega
  · omega

end CLK.MFM

namespace CLK.TimedEventLoop

/-! ## TimedEventLoop (TimedEventLoop.cpp)

`TimedEventLoop::run_for` advances by `cycles_until_event_`, calling the
virtual `advance()` hook and then `process_next_event()` each time the
countdown is exhausted, and applies any remainder as one final partial
`advance()`.  The virtual hooks are parameters: `advance` acts on the
subclass state, `process_next_event` acts on it and returns the next
countdown it schedules through `set_next_event_time_interval` (which adds to
the zeroed `cycles_until_event_`).  The loop is fuel-bounded;
`cycles.toNat + 2` iterations always suffice once every scheduled countdown
is positive (the source asserts `cycles_until_event_ > 0`). -/

structure LoopState (α : Type) where
  cycles_until_event : ℤ
  client : α

/-- The observable outcome of one `run_for` call: the final state, the
amounts advanced in iterations that ended with `process_next_event`, and the
final partial advance, if any. -/
structure RunForResult (α : Type) where
  state : LoopState α
  iters : List ℤ
  finalAdv : Option ℤ

def run_for_loop {α : Type} (advance : ℤ → α → α) (process_next_event : α → α × ℤ) :
    ℕ → ℤ → LoopState α → Option (RunForResult α)
  | 0, _, _ => none
  | fuel + 1, remaining_cycles, s =>
      if s.cycles_until_event ≤ remaining_cycles then
        -- advance(cycles_until_event_); remaining -= it; countdown = 0;
        -- process_next_event() reschedules the countdown
        (run_for_loop advance process_next_event fuel
            (remaining_cycles - s.cycles_until_event)
            ⟨(process_next_event (advance s.cycles_until_event s.client)).2,
             (process_next_event (advance s.cycles_until_event s.client)).1⟩).map
          (fun r => { r with iters := s.cycles_until_event :: r.iters })
      else
        if remaining_cycles ≠ 0 then
          -- cycles_until_event_ -= remaining; advance(remaining)
          some ⟨⟨s.cycles_until_event - remaining_cycles,
                 advance remaining_cycles s.client⟩, [], some remaining_cycles⟩
        else
          some ⟨s, [], none⟩

/-- `TimedEventLoop::run_for(cycles)`. -/
def run_for {α : Type} (advance : ℤ → α → α) (process_next_event : α → α × ℤ)
    (cycles : ℤ) (s : LoopState α) : Option (RunForResult α) :=
  run_for_loop advance process_next_event (cycles.toNat + 2) cycles s

theorem run_for_loop_succ {α : Type} (advance : ℤ → α → α)
    (process_next_event : α → α × ℤ) (fuel : ℕ) (remaining_cycles : ℤ)
    (s : LoopState α) :
    run_for_loop advance process_next_event (fuel + 1) remaining_cycles s =
      if s.cycles_until_event ≤ remaining_cycles then
        (run_for_loop advance process_next_event fuel
            (remaining_cycles - s.cycles_until_event)
            ⟨(process_next_event (advance s.cycles_until_event s.client)).2,
             (process_next_event (advance s.cycles_until_event s.client)).1⟩).map
          (fun r => { r with iters := s.cycles_until_event :: r.iters })
      else
        if remaining_cycles ≠ 0 then
          some ⟨⟨s.cycles_until_event - remaining_cycles,
                 advance remaining_cycles s.client⟩, [], some remaining_cycles⟩
        else
          some ⟨s, [], none⟩ := rfl

theorem run_for_loop_spec {α : Type} (advance : ℤ → α → α)
    (process_next_event : α → α × ℤ)
    (hpne : ∀ a, 0 < (process_next_event a).2) :
    ∀ fuel (rem : ℤ) (s : LoopState α), 0 ≤ rem → 0 < s.cycles_until_event →
      rem.toNat + 1 ≤ fuel →
      ∃ r, run_for_loop advance process_next_event fuel rem s = some r ∧
        r.iters.sum + r.finalAdv.getD 0 = rem ∧
        (∀ x, r.finalAdv = some x → 0 < x) ∧
        0 < r.state.cycles_until_event := by
  intro fuel
  induction fuel with
  | zero =>
      intro rem s h1 h2 h3
      omega
  | succ fuel ih =>
      intro rem s hrem hpos hfuel
      by_cases hle : s.cycles_until_event ≤ rem
      · have hrem' : 0 ≤ rem - s.cycles_until_event := by omega
        have hfuel' : (rem - s.cycles_until_event).toNat + 1 ≤ fuel := by omega
        obtain ⟨r, hr, hsum, hfin, hpos'⟩ := ih (rem - s.cycles_until_event)
          ⟨(process_next_event (advance s.cycles_until_event s.client)).2,
           (process_next_event (advance s.cycles_until_event s.client)).1⟩
          hrem' (hpne _) hfuel'
        refine ⟨{ r with iters := s.cycles_until_event :: r.iters }, ?_, ?_, hfin, hpos'⟩
        · rw [run_for_loop_succ, if_pos hle, hr]
          rfl
        · show s.cycles_until_event + r.iters.sum + r.finalAdv.getD 0 = rem
          linarith
      · by_cases hzero : rem = 0
        · refine ⟨⟨s, [], none⟩, ?_, ?_, ?_, hpos⟩
          · rw [run_for_loop_succ, if_neg hle, if_neg (by simpa using hzero)]
          · simp [hzero]
          · intro x hx
            cases hx
        · refine ⟨⟨⟨s.cycles_until_event - rem, advance rem s.client⟩, [], some rem⟩,
            ?_, ?_, ?_, ?_⟩
          · rw [run_for_loop_succ, if_neg hle, if_pos hzero]
          · simp
          · intro x hx
            rw [← Option.some.inj hx]
            omega
          · show 0 < s.cycles_until_event - rem
            omega

/-- C8: for every non-negative cycle budget, `run_for(cycles)` terminates
within its fuel and the amounts passed to `advance()` — one full countdown
per `process_next_event()` invocation plus at most one final partial
advance — sum to exactly the requested cycle count; the final partial
advance, when present, is positive and strictly smaller than the countdown
then in force (the remaining countdown stays positive, as the source
asserts). -/
theorem run_for_advance_sum {α : Type} (advance : ℤ → α → α)
    (process_next_event : α → α × ℤ) (cycles : ℤ) (s : LoopState α)
    (hcycles : 0 ≤ cycles) (hinit : 0 ≤ s.cycles_until_event)
    (hpne : ∀ a, 0 < (process_next_event a).2) :
    ∃ r, run_for advance process_next_event cycles s = some r ∧
      r.iters.sum + r.finalAdv.getD 0 = cycles ∧
      (∀ x, r.finalAdv = some x → 0 < x) ∧
      0 < r.state.cycles_until_event := by
  rcases lt_or_eq_of_le hinit with hpos | hzero
  · exact run_for_loop_spec advance process_next_event hpne (cycles.toNat + 2) cycles s
      hcycles hpos (by omega)
  · -- initial countdown zero: the first iteration advances by zero and
    -- reschedules, after which the countdown is positive
    have hle : s.cycles_until_event ≤ cycles := by omega
    obtain ⟨r, hr, hsum, hfin, hpos'⟩ := run_for_loop_spec advance process_next_event hpne
      (cycles.toNat + 1) (cycles - s.cycles_until_event)
      ⟨(process_next_event (advance s.cycles_until_event s.client)).2,
       (process_next_event (advance s.cycles_until_event s.client)).1⟩
      (by omega) (hpne _) (by omega)
    refine ⟨{ r with iters := s.cycles_until_event :: r.iters }, ?_, ?_, hfin, hpos'⟩
    · rw [run_for, run_for_loop_succ, if_pos hle, hr]
      rfl
    · show s.cycles_until_event + r.iters.sum + r.finalAdv.getD 0 = cycles
      linarith

/-- Witness for `run_for_advance_sum`: countdown 3 within a 7-cycle budget,
each event rescheduling 5 cycles; one full iteration and a final partial
advance of 4. -/
theorem run_for_advance_sum_witness :
    ∃ r, run_for (fun _ a => a) (fun a : ℕ => (a + 1, (5:ℤ))) 7 ⟨3, 0⟩ = some r ∧
      r.iters.sum + r.finalAdv.getD 0 = 7 ∧
      (∀ x, r.finalAdv = some x → 0 < x) ∧
      0 < r.state.cycles_until_event :=
  run_for_advance_sum (fun _ a => a) (fun a : ℕ => (a + 1, (5:ℤ))) 7 ⟨3, 0⟩
    (by norm_num) (by norm_num) (fun a => by norm_num)

end CLK.TimedEventLoop
